import Mathlib

/-!
Shallow embedding of the consumption dashboard's import reconciler
(src/dashboard/consumption/management/commands/import.py) and of its
aggregation engine (src/dashboard/consumption/chart/statistics.py),
with theorems settling the specification's claims about them.

Machine floats of the source are modelled by rationals, pandas frames by
lists of rows, and the database tables by lists of rows; every definition
mirrors one function or statement of the source, as noted next to it.
-/

namespace SmapDashboard

/-! ### Python and pandas primitives -/

/-- Python range(0, stop, step) for a possibly negative stop, as used by the
batching loops of import.py. -/
def pyRange (stop : Int) (step : Nat) : List Nat :=
  if 0 < stop ∧ 0 < step then
    (List.range ((stop - 1).toNat / step + 1)).map (fun k => k * step)
  else []

/-- The slice the batching loops take: list[i : i + bs] when at least bs
elements remain past i, list[i:] otherwise (the if in import.py lines 46-49,
52-55, 162-165 and 168-173). -/
def pySlice {α : Type} (l : List α) (i : Nat) (bs : Nat) : List α :=
  if bs ≤ l.length - i then (l.drop i).take bs else l.drop i

/-- pandas Series.unique: the distinct values in order of first occurrence. -/
def uniqueFirst {α : Type} [DecidableEq α] (l : List α) : List α :=
  l.foldl (fun acc b => if b ∈ acc then acc else acc ++ [b]) []

theorem pyRange_nonpos (stop : Int) (step : Nat) (h : stop ≤ 0) :
    pyRange stop step = [] := by
  unfold pyRange
  rw [if_neg]
  rintro ⟨h1, -⟩
  omega

theorem pyRange_nat_succ (n step : Nat) (hn : 0 < n) (hs : 0 < step) :
    pyRange (n : Int) step
      = 0 :: (pyRange ((n - step : Nat) : Int) step).map (fun i => i + step) := by
  unfold pyRange
  rw [if_pos ⟨by exact_mod_cast hn, hs⟩]
  have htn : ((n : Int) - 1).toNat = n - 1 := by omega
  rw [htn]
  by_cases hle : n ≤ step
  · have h0 : (n - 1) / step = 0 := Nat.div_eq_of_lt (by omega)
    have h2 : ((n - step : Nat) : Int) ≤ 0 := by
      have : n - step = 0 := by omega
      simp [this]
    rw [if_neg (by rintro ⟨ha, -⟩; omega)]
    simp [h0, List.range_succ_eq_map]
  · push_neg at hle
    rw [if_pos ⟨by exact_mod_cast Nat.sub_pos_of_lt hle, hs⟩]
    have htn2 : (((n - step : Nat) : Int) - 1).toNat = n - step - 1 := by omega
    rw [htn2]
    have hsplit : n - 1 = (n - step - 1) + step := by omega
    rw [hsplit, Nat.add_div_right _ hs, List.range_succ_eq_map]
    simp only [List.map_cons, Nat.zero_mul, List.map_map]
    congr 1
    apply List.map_congr_left
    intro a _
    simp [Function.comp, Nat.succ_mul]

theorem pySlice_zero {α : Type} (l : List α) (bs : Nat) :
    pySlice l 0 bs = l.take bs := by
  unfold pySlice
  by_cases h : bs ≤ l.length - 0
  · rw [if_pos h]
    simp
  · rw [if_neg h]
    have : l.length ≤ bs := by omega
    simp [List.take_of_length_le this]

theorem pySlice_add {α : Type} (l : List α) (i bs : Nat) :
    pySlice l (i + bs) bs = pySlice (l.drop bs) i bs := by
  unfold pySlice
  have hlen : (l.drop bs).length - i = l.length - (i + bs) := by
    simp [List.length_drop]
    omega
  have hdrop : (l.drop bs).drop i = l.drop (i + bs) := by
    rw [List.drop_drop, Nat.add_comm]
  rw [hlen, hdrop]

/-- One pass of the batching pattern of import.py: folding an accumulating
operation over the slices indexed by range(0, len l, bs) applies it to the
whole list, provided the operation splits over appends. -/
theorem foldl_pyRange_batches {α β : Type} (bs : Nat) (hbs : 0 < bs)
    (g : β → List α → β)
    (hg0 : ∀ st, g st [] = st)
    (hg2 : ∀ st a b, g st (a ++ b) = g (g st a) b) :
    ∀ (l : List α) (st : β),
      (pyRange (l.length : Int) bs).foldl (fun s i => g s (pySlice l i bs)) st
        = g st l := by
  have main : ∀ (n : Nat) (l : List α), l.length = n → ∀ st : β,
      (pyRange (l.length : Int) bs).foldl (fun s i => g s (pySlice l i bs)) st
        = g st l := by
    intro n
    induction n using Nat.strong_induction_on with
    | _ n ih =>
      intro l hl st
      cases l with
      | nil =>
        simp [pyRange_nonpos, hg0]
      | cons x xs =>
        have hpos : 0 < (x :: xs).length := by simp
        rw [pyRange_nat_succ _ _ hpos hbs]
        simp only [List.foldl_cons, List.foldl_map]
        rw [pySlice_zero]
        simp only [pySlice_add]
        have hdl : ((x :: xs).length - bs) = ((x :: xs).drop bs).length := by
          simp [List.length_drop]
        rw [hdl]
        have hlt : ((x :: xs).drop bs).length < n := by
          rw [List.length_drop]
          simp only [List.length_cons] at hl ⊢
          omega
        have hrec := ih (((x :: xs).drop bs).length) hlt
          ((x :: xs).drop bs) rfl (g st ((x :: xs).take bs))
        rw [hrec, ← hg2, List.take_append_drop]
  intro l st
  exact main l.length l rfl st

theorem uniqueFirst_aux_mem {α : Type} [DecidableEq α] (l : List α) :
    ∀ (acc : List α) (a : α),
      (a ∈ l.foldl (fun acc b => if b ∈ acc then acc else acc ++ [b]) acc)
        ↔ a ∈ acc ∨ a ∈ l := by
  induction l with
  | nil => simp
  | cons x xs ih =>
    intro acc a
    simp only [List.foldl_cons]
    by_cases hx : x ∈ acc
    · rw [if_pos hx, ih]
      constructor
      · rintro (h | h)
        · exact Or.inl h
        · exact Or.inr (List.mem_cons_of_mem _ h)
      · rintro (h | h)
        · exact Or.inl h
        · rcases List.mem_cons.mp h with h | h
          · exact Or.inl (h ▸ hx)
          · exact Or.inr h
    · rw [if_neg hx, ih]
      simp only [List.mem_append, List.mem_singleton, List.mem_cons]
      tauto

theorem mem_uniqueFirst {α : Type} [DecidableEq α] (l : List α) (a : α) :
    a ∈ uniqueFirst l ↔ a ∈ l := by
  unfold uniqueFirst
  rw [uniqueFirst_aux_mem]
  simp

theorem uniqueFirst_aux_nodup {α : Type} [DecidableEq α] (l : List α) :
    ∀ (acc : List α), acc.Nodup →
      (l.foldl (fun acc b => if b ∈ acc then acc else acc ++ [b]) acc).Nodup := by
  induction l with
  | nil => intro acc h; simpa using h
  | cons x xs ih =>
    intro acc hacc
    simp only [List.foldl_cons]
    by_cases hx : x ∈ acc
    · rw [if_pos hx]; exact ih acc hacc
    · rw [if_neg hx]
      apply ih
      rw [List.nodup_append]
      refine ⟨hacc, List.nodup_singleton x, ?_⟩
      intro a ha hb
      rw [List.mem_singleton] at hb
      exact hx (hb ▸ ha)

theorem nodup_uniqueFirst {α : Type} [DecidableEq α] (l : List α) :
    (uniqueFirst l).Nodup :=
  uniqueFirst_aux_nodup l [] List.nodup_nil

/-! ### Data model (models.py) -/

/-- A row of the User table (models.py lines 35-38): integer primary key,
area and tariff codes.  The same shape models a parsed row of the user CSV,
whose required columns id, area, tariff are checked by import_user_data. -/
structure UserRow where
  id : Int
  area : String
  tariff : String
deriving DecidableEq

/-- The User table: its rows in storage order. -/
abbrev UserTable := List UserRow

/-- A row of the Consumption table (models.py lines 44-50), with the
consumption float modelled as a rational.  The surrogate id is left out:
rows are identified by the (user, datetime) pair, unique by constraint. -/
structure CRow where
  user_id : Int
  datetime : Int
  consumption : ℚ
deriving DecidableEq

/-- The Consumption table: its rows in storage order. -/
abbrev Store := List CRow

/-- The (user, datetime) key of a consumption row, the pair that the
unique constraint of Consumption.Meta makes a key. -/
def keyOf (c : CRow) : Int × Int := (c.user_id, c.datetime)

/-- The unique constraint of Consumption.Meta (models.py lines 52-55):
at most one reading per (user, datetime) pair. -/
def uniqueUserDatetime (st : Store) : Prop := (st.map keyOf).Nodup

instance (st : Store) : Decidable (uniqueUserDatetime st) := by
  unfold uniqueUserDatetime
  infer_instance

/-! ### User metadata import (import.py lines 14-55) -/

/-- User.objects.in_bulk restricted to one id: the existing user with that
id, when there is one. -/
def lookupUser (table : UserTable) (uid : Int) : Option UserRow :=
  table.find? (fun u => u.id = uid)

/-- make_user_list_to_create_and_update (import.py lines 14-31): partition
the CSV rows into users to create and existing users, mutated in place to
the row's area and tariff, to update. -/
def make_user_list_to_create_and_update (df : List UserRow) (table : UserTable) :
    List UserRow × List UserRow :=
  df.foldl (fun cu row =>
    match lookupUser table row.id with
    | some u => (cu.1, cu.2 ++ [⟨u.id, row.area, row.tariff⟩])
    | none => (cu.1 ++ [⟨row.id, row.area, row.tariff⟩], cu.2)) ([], [])

/-- User.objects.bulk_create: append the new rows to the table. -/
def bulk_create_users (table : UserTable) (rows : List UserRow) : UserTable :=
  table ++ rows

/-- User.objects.bulk_update(rows, ["area", "tariff"]): write each queued
row's area and tariff over the stored row with the same id. -/
def bulk_update_users (table : UserTable) (rows : List UserRow) : UserTable :=
  rows.foldl (fun t u =>
    t.map (fun v => if v.id = u.id then ⟨v.id, u.area, u.tariff⟩ else v)) table

/-- import_user_data (import.py lines 34-55) after the CSV is parsed and its
columns checked: partition the rows, then run the two batching loops.  Both
loops are bounded by range(0, len(users_to_create) - batch_size, batch_size),
exactly as in the source - including the update loop, which reads the length
of the create list. -/
def import_user_data (df : List UserRow) (table : UserTable) (batch_size : Nat) :
    UserTable :=
  let cu := make_user_list_to_create_and_update df table
  let table1 := (pyRange ((cu.1.length : Int) - batch_size) batch_size).foldl
    (fun t i => bulk_create_users t (pySlice cu.1 i batch_size)) table
  (pyRange ((cu.1.length : Int) - batch_size) batch_size).foldl
    (fun t i => bulk_update_users t (pySlice cu.2 i batch_size)) table1

/-- A user CSV with three new users, fewer than one default batch. -/
def smallUserDf : List UserRow :=
  [⟨1, "a1", "t1"⟩, ⟨2, "a1", "t2"⟩, ⟨3, "a2", "t1"⟩]

/-- C1.  For every user-metadata import call, import_user_data applies every
partitioned row to storage in fixed-size batches inside one transaction; in
particular an import whose create list holds fewer rows than one batch size
still persists all of those rows.  The code violates this: with three users
queued for creation and the default batch size of 10000, the loop bound
range(0, 3 - 10000, 10000) is empty and the import writes nothing at all. -/
theorem c1_small_import_writes_nothing :
    (make_user_list_to_create_and_update smallUserDf []).1.length = 3
      ∧ import_user_data smallUserDf [] 10000 = [] := by
  constructor
  · rfl
  · rfl

/-- C10.  The update loop of import_user_data is bounded by the length of
the create list: whenever at most batch_size new users are queued for
creation, the bound len(users_to_create) - batch_size is not positive, no
bulk update (and no bulk create) is issued, and the stored table - every
existing user's area and tariff included - is left exactly as it was,
whatever different values the source supplies. -/
theorem c10_update_loop_bound_frames_out_updates
    (df : List UserRow) (table : UserTable) (batch_size : Nat)
    (hsmall : (make_user_list_to_create_and_update df table).1.length ≤ batch_size) :
    pyRange (((make_user_list_to_create_and_update df table).1.length : Int)
        - batch_size) batch_size = []
      ∧ import_user_data df table batch_size = table := by
  have hempty : pyRange (((make_user_list_to_create_and_update df table).1.length : Int)
      - batch_size) batch_size = [] := by
    apply pyRange_nonpos
    omega
  refine ⟨hempty, ?_⟩
  unfold import_user_data
  simp only [hempty, List.foldl_nil]

/-- C10, instantiated: a source row carrying a changed area and tariff for
the one existing user leaves the stored row untouched. -/
theorem c10_witness :
    import_user_data [⟨1, "b2", "u9"⟩] [⟨1, "a1", "t1"⟩] 10000 = [⟨1, "a1", "t1"⟩] :=
  (c10_update_loop_bound_frames_out_updates
    [⟨1, "b2", "u9"⟩] [⟨1, "a1", "t1"⟩] 10000 (by decide)).2

/-! ### Consumption load (import.py lines 58-102) -/

/-- The errors the consumption pipeline raises.  The source raises them all
as Exception or ValueError with distinguishing messages; the spec's taxonomy
names them, and the constructors follow the taxonomy. -/
inductive ImpError where
  | noFiles
  | invalidStem
  | validationError (offending : String)
  | referentialIntegrityError (uid : Int)
deriving DecidableEq

/-- A parsed CSV timestamp cell: either naive (wall-clock reading with no
zone) or zone-aware (an absolute instant). -/
inductive SrcTs where
  | naive (wall : Int)
  | aware (instant : Int)
deriving DecidableEq

/-- A parsed CSV consumption cell: a value float-coercible to q, or a text
such as "N/A" that float coercion rejects. -/
inductive Cell where
  | num (q : ℚ)
  | nan (text : String)
deriving DecidableEq

/-- One consumption CSV file: the filename stem as parsed by int() - none
models a stem that is not an integer - and the (datetime, consumption)
rows. -/
structure SrcFile where
  stemId : Option Int
  rows : List (SrcTs × Cell)
deriving DecidableEq

/-- A working-set row after the per-file frames get their user_id column
(import.py line 75) and are concatenated (line 78). -/
structure TRow where
  user_id : Int
  datetime : SrcTs
  consumption : Cell
deriving DecidableEq

/-- A working-set row once timestamps are normalized to absolute instants
(import.py lines 86-89). -/
structure NRow where
  user_id : Int
  datetime : Int
  consumption : Cell
deriving DecidableEq

def tsIsNaive : SrcTs → Bool
  | .naive _ => true
  | .aware _ => false

def tsValue : SrcTs → Int
  | .naive w => w
  | .aware i => i

/-- Modelled from the spec: the Django settings module is not under src/,
so the zone that django.utils.timezone.make_aware attaches to a naive
timestamp is not in the sources; the spec (and the source comment at
import.py line 87) fix it as UTC, offset zero. -/
def default_timezone_offset : Int := 0

/-- django.utils.timezone.make_aware: interpret a naive wall-clock time in
the default zone, giving the absolute instant. -/
def make_aware (wall : Int) : Int := wall - default_timezone_offset

/-- import.py lines 86-89: if the parsed datetime column carries no zone,
every row is made aware in the default zone; a column already aware is kept
as the instants it denotes. -/
def normalizeTz (rows : List TRow) : List NRow :=
  if rows.all (fun r => tsIsNaive r.datetime) then
    rows.map (fun r => ⟨r.user_id, make_aware (tsValue r.datetime), r.consumption⟩)
  else
    rows.map (fun r => ⟨r.user_id, tsValue r.datetime, r.consumption⟩)

/-- The per-file loop body of load_consumption_data (import.py lines 66-76):
check each filename stem parses as an integer, tag the file's rows with it,
and concatenate in file order. -/
def tagFiles : List SrcFile → Except ImpError (List TRow)
  | [] => .ok []
  | f :: rest =>
    match f.stemId with
    | none => .error .invalidStem
    | some uid =>
      (tagFiles rest).map (fun t =>
        f.rows.map (fun rc => ⟨uid, rc.1, rc.2⟩) ++ t)

/-- import.py lines 61-83: fail when the directory holds no CSV, then tag
and concatenate (the required-column check is carried by the row types). -/
def rawCombined (files : List SrcFile) : Except ImpError (List TRow) :=
  if files.isEmpty then .error .noFiles else tagFiles files

/-- The key of a working-set row, matching drop_duplicates
(subset=["user_id", "datetime"]). -/
def keyN (r : NRow) : Int × Int := (r.user_id, r.datetime)

/-- pandas drop_duplicates(subset=["user_id", "datetime"], keep="last")
(import.py line 92): a row survives exactly when no later row carries the
same key; order is otherwise preserved. -/
def drop_duplicates_keep_last : List NRow → List NRow
  | [] => []
  | r :: rest =>
    if rest.any (fun x => keyN x = keyN r) then drop_duplicates_keep_last rest
    else r :: drop_duplicates_keep_last rest

/-- astype("float64") on the consumption column (import.py lines 94-101):
coerce every value, or fail with a ValueError naming the offending text,
re-raised as the import's validation error. -/
def coerceRows : List NRow → Except ImpError (List CRow)
  | [] => .ok []
  | r :: rest =>
    match r.consumption with
    | .num q => (coerceRows rest).map (fun t => ⟨r.user_id, r.datetime, q⟩ :: t)
    | .nan s => .error (.validationError s)

/-- The combined working set of an import: concatenated, tagged and
timezone-normalized, just before deduplication (import.py line 92). -/
def workingSetOf (files : List SrcFile) : Except ImpError (List NRow) :=
  (rawCombined files).map normalizeTz

/-- load_consumption_data (import.py lines 58-102): concatenate, normalize
timestamps, deduplicate keeping the last occurrence, coerce consumptions. -/
def load_consumption_data (files : List SrcFile) : Except ImpError (List CRow) :=
  match workingSetOf files with
  | .error e => .error e
  | .ok rows => coerceRows (drop_duplicates_keep_last rows)

/-! ### Consumption import (import.py lines 105-173) -/

/-- The dict comprehension of import.py line 150 read back at one key:
built left to right, a later row with the same key overwrites an earlier
one, so lookup returns the last matching row. -/
def lookupLast (l : List CRow) (k : Int × Int) : Option CRow :=
  (l.filter (fun c => keyOf c = k)).getLast?

/-- make_consumption_data_list_to_create_and_update (import.py lines
105-130): partition working rows into creates (key absent from the fetched
existing readings) and updates (the fetched reading, its consumption
mutated to the row's value). -/
def make_consumption_cud (rows : List CRow) (existing : List CRow) :
    List CRow × List CRow :=
  rows.foldl (fun cu r =>
    match lookupLast existing (keyOf r) with
    | some e => (cu.1, cu.2 ++ [⟨e.user_id, e.datetime, r.consumption⟩])
    | none => (cu.1 ++ [⟨r.user_id, r.datetime, r.consumption⟩], cu.2)) ([], [])

/-- The referential-integrity loop of import.py lines 142-144: the first
user id of the working set, in first-occurrence order, that is not in the
User table. -/
def firstMissingUser (ids : List Int) (table : List Int) : Option Int :=
  ids.find? (fun uid => decide (uid ∉ table))

/-- Consumption.objects.filter(user_id__in=..., datetime__in=...) (import.py
lines 147-149): the stored rows whose user id and datetime each appear in
the working set's columns. -/
def existingFetch (store : Store) (uids : List Int) (dts : List Int) : List CRow :=
  store.filter (fun c => c.user_id ∈ uids ∧ c.datetime ∈ dts)

/-- Consumption.objects.bulk_update(rows, ["consumption"]): write each
queued row's consumption over the stored reading with the same key. -/
def bulk_update_consumptions (store : Store) (rows : List CRow) : Store :=
  rows.foldl (fun st u =>
    st.map (fun v => if keyOf v = keyOf u then ⟨v.user_id, v.datetime, u.consumption⟩
      else v)) store

/-- import_all_consumption_data (import.py lines 133-173): load the working
set, reject any unknown user id before touching the Consumption table,
fetch the existing readings for the working keys, partition into creates
and updates, and apply both lists in batches of batch_size inside one
transaction.  Unlike the user import, both loops here are bounded by
range(0, len(list), batch_size) over their own list. -/
def import_all_consumption_data (store : Store) (table : List Int)
    (files : List SrcFile) (batch_size : Nat) : Except ImpError Store :=
  match load_consumption_data files with
  | .error e => .error e
  | .ok combined =>
    let user_ids := uniqueFirst (combined.map (fun c => c.user_id))
    match firstMissingUser user_ids table with
    | some uid => .error (.referentialIntegrityError uid)
    | none =>
      let existing := existingFetch store user_ids (combined.map (fun c => c.datetime))
      let cu := make_consumption_cud combined existing
      let st1 := (pyRange ((cu.1.length : Int)) batch_size).foldl
        (fun st i => st ++ pySlice cu.1 i batch_size) store
      Except.ok ((pyRange ((cu.2.length : Int)) batch_size).foldl
        (fun st i => bulk_update_consumptions st (pySlice cu.2 i batch_size)) st1)

instance {ε α : Type} [DecidableEq ε] [DecidableEq α] : DecidableEq (Except ε α) :=
  fun x y =>
    match x, y with
    | .ok a, .ok b =>
      if h : a = b then isTrue (by rw [h])
      else isFalse (fun hc => h (Except.ok.inj hc))
    | .error e, .error f =>
      if h : e = f then isTrue (by rw [h])
      else isFalse (fun hc => h (Except.error.inj hc))
    | .ok _, .error _ => isFalse (fun hc => Except.noConfusion hc)
    | .error _, .ok _ => isFalse (fun hc => Except.noConfusion hc)

/-! ### Unfolding lemmas for the consumption import -/

theorem bulk_update_consumptions_nil (st : Store) :
    bulk_update_consumptions st [] = st := rfl

theorem bulk_update_consumptions_append (st : Store) (a b : List CRow) :
    bulk_update_consumptions st (a ++ b)
      = bulk_update_consumptions (bulk_update_consumptions st a) b :=
  List.foldl_append _ _ _ _

theorem batched_creates_eq (bs : Nat) (hbs : 0 < bs) (l : List CRow) (st : Store) :
    (pyRange ((l.length : Int)) bs).foldl (fun st i => st ++ pySlice l i bs) st
      = st ++ l := by
  have h := foldl_pyRange_batches bs hbs (fun st c => st ++ c)
    (fun st => by simp) (fun st a b => by simp [List.append_assoc]) l st
  exact h

theorem batched_updates_eq (bs : Nat) (hbs : 0 < bs) (l : List CRow) (st : Store) :
    (pyRange ((l.length : Int)) bs).foldl
        (fun st i => bulk_update_consumptions st (pySlice l i bs)) st
      = bulk_update_consumptions st l := by
  have h := foldl_pyRange_batches bs hbs bulk_update_consumptions
    bulk_update_consumptions_nil bulk_update_consumptions_append l st
  exact h

theorem import_all_error_of_load (store : Store) (table : List Int)
    (files : List SrcFile) (bs : Nat) (e : ImpError)
    (hload : load_consumption_data files = .error e) :
    import_all_consumption_data store table files bs = .error e := by
  unfold import_all_consumption_data
  rw [hload]

theorem import_all_error_of_missing (store : Store) (table : List Int)
    (files : List SrcFile) (bs : Nat) (combined : List CRow) (uid : Int)
    (hload : load_consumption_data files = .ok combined)
    (hmiss : firstMissingUser (uniqueFirst (combined.map (fun c => c.user_id)))
        table = some uid) :
    import_all_consumption_data store table files bs
      = .error (.referentialIntegrityError uid) := by
  unfold import_all_consumption_data
  rw [hload]
  dsimp only
  rw [hmiss]

theorem import_all_applied (store : Store) (table : List Int)
    (files : List SrcFile) (bs : Nat) (hbs : 0 < bs) (combined : List CRow)
    (hload : load_consumption_data files = .ok combined)
    (hmiss : firstMissingUser (uniqueFirst (combined.map (fun c => c.user_id)))
        table = none) :
    import_all_consumption_data store table files bs
      = .ok (bulk_update_consumptions
          (store ++ (make_consumption_cud combined
            (existingFetch store (uniqueFirst (combined.map (fun c => c.user_id)))
              (combined.map (fun c => c.datetime)))).1)
          (make_consumption_cud combined
            (existingFetch store (uniqueFirst (combined.map (fun c => c.user_id)))
              (combined.map (fun c => c.datetime)))).2) := by
  unfold import_all_consumption_data
  rw [hload]
  dsimp only
  rw [hmiss]
  dsimp only
  rw [batched_creates_eq bs hbs, batched_updates_eq bs hbs]

/-! ### C4: referential integrity is a strict precondition -/

/-- C4.  Whenever the loaded working set references a user id absent from
the User table, import_all_consumption_data fails with the
referential-integrity error for some absent user, for every storage state
and batch size: the error is raised by the id check of lines 142-144,
before the existing-readings fetch and before the write transaction, so no
reading - not even one of an existing user - is created or updated. -/
theorem c4_missing_user_fails_whole_import
    (store : Store) (table : List Int) (files : List SrcFile) (bs : Nat)
    (combined : List CRow) (hload : load_consumption_data files = .ok combined)
    (uid : Int) (hused : uid ∈ combined.map (fun c => c.user_id))
    (habs : uid ∉ table) :
    ∃ u, u ∉ table ∧ import_all_consumption_data store table files bs
        = .error (.referentialIntegrityError u) := by
  have hsome : (firstMissingUser (uniqueFirst (combined.map (fun c => c.user_id)))
      table).isSome := by
    unfold firstMissingUser
    rw [List.find?_isSome]
    exact ⟨uid, (mem_uniqueFirst _ _).mpr hused, decide_eq_true habs⟩
  obtain ⟨u, hu⟩ := Option.isSome_iff_exists.mp hsome
  have hu' := hu
  unfold firstMissingUser at hu'
  have hpred : u ∉ table := by
    have hp := List.find?_some hu'
    simpa using hp
  exact ⟨u, hpred, import_all_error_of_missing store table files bs combined u hload hu⟩

/-- C4 at a concrete input: a single file for user 7 against an empty User
table fails with the referential-integrity error. -/
theorem c4_witness :
    ∃ u, u ∉ ([] : List Int)
      ∧ import_all_consumption_data [] [] [⟨some 7, [(.naive 0, .num 1)]⟩] 1000
          = .error (.referentialIntegrityError u) :=
  c4_missing_user_fails_whole_import [] [] [⟨some 7, [(.naive 0, .num 1)]⟩] 1000
    [⟨7, 0, 1⟩] (by decide) 7 (by decide) (by decide)

/-! ### C8: naive timestamps are interpreted in the fixed zone UTC -/

/-- C8.  When the parsed datetime column lacks zone information entirely,
lines 86-89 apply make_aware to every row uniformly, and make_aware
attaches the one fixed default zone, whose offset the spec pins to UTC:
the interpreted instant equals the wall-clock value for every row. -/
theorem c8_naive_timestamps_read_as_utc (rows : List TRow)
    (hnaive : ∀ r ∈ rows, tsIsNaive r.datetime = true) :
    normalizeTz rows
        = rows.map (fun r => ⟨r.user_id, make_aware (tsValue r.datetime), r.consumption⟩)
      ∧ ∀ w : Int, make_aware w = w := by
  constructor
  · unfold normalizeTz
    rw [if_pos (List.all_eq_true.mpr hnaive)]
  · intro w
    unfold make_aware default_timezone_offset
    omega

/-- C8 at a concrete input: one naive row, normalized at offset zero. -/
theorem c8_witness :
    normalizeTz [⟨1, .naive 5, .num 2⟩]
        = [(⟨1, .naive 5, .num 2⟩ : TRow)].map
            (fun r => ⟨r.user_id, make_aware (tsValue r.datetime), r.consumption⟩)
      ∧ ∀ w : Int, make_aware w = w :=
  c8_naive_timestamps_read_as_utc [⟨1, .naive 5, .num 2⟩] (by decide)

/-! ### C9: non-coercible consumption values -/

theorem coerceRows_error_of_nan (l : List NRow)
    (hnan : ∃ r ∈ l, ∃ s, r.consumption = .nan s) :
    ∃ s, coerceRows l = .error (.validationError s)
      ∧ ∃ r ∈ l, r.consumption = .nan s := by
  induction l with
  | nil => simp at hnan
  | cons r rest ih =>
    cases hr : r.consumption with
    | nan s =>
      refine ⟨s, ?_, r, List.mem_cons_self r rest, hr⟩
      simp [coerceRows, hr]
    | num q =>
      have hrest : ∃ r' ∈ rest, ∃ s, r'.consumption = .nan s := by
        rcases hnan with ⟨r', hmem, s, hs⟩
        rcases List.mem_cons.mp hmem with h | h
        · rw [h, hr] at hs
          cases hs
        · exact ⟨r', h, s, hs⟩
      rcases ih hrest with ⟨s, herr, r', hmem, hs⟩
      refine ⟨s, ?_, r', List.mem_cons_of_mem _ hmem, hs⟩
      simp [coerceRows, hr, herr, Except.map]

/-- The file whose combined source holds a non-coercible "N/A" that a later
duplicate of the same (user, datetime) key shadows. -/
def shadowedNanFiles : List SrcFile :=
  [⟨some 1, [(.naive 0, .nan "N/A"), (.naive 0, .num 5)]⟩]

/-- C9 fails as stated: this combined source contains the non-coercible
value "N/A", yet the import call succeeds and commits a row, because
drop_duplicates (line 92) runs before float coercion (lines 94-101) and
deletes the offending row in favour of its later duplicate. -/
theorem c9_counterexample_shadowed_nan_succeeds :
    workingSetOf shadowedNanFiles
        = .ok [⟨1, 0, .nan "N/A"⟩, ⟨1, 0, .num 5⟩]
      ∧ import_all_consumption_data [] [1] shadowedNanFiles 1000
          = .ok [⟨1, 0, 5⟩] := by
  constructor
  · decide
  · decide

/-- C9 amended: whenever a non-coercible consumption value survives
deduplication of the working set, the whole call fails with a validation
error identifying an offending value, the failure arises inside
load_consumption_data before any storage access, and no rows are committed
for any storage state, user table or batch size. -/
theorem c9_surviving_nan_fails_import (files : List SrcFile) (rows : List NRow)
    (hws : workingSetOf files = .ok rows)
    (hnan : ∃ r ∈ drop_duplicates_keep_last rows, ∃ s, r.consumption = .nan s) :
    ∃ s, (∃ r ∈ drop_duplicates_keep_last rows, r.consumption = .nan s)
      ∧ load_consumption_data files = .error (.validationError s)
      ∧ ∀ (store : Store) (table : List Int) (bs : Nat),
          import_all_consumption_data store table files bs
            = .error (.validationError s) := by
  rcases coerceRows_error_of_nan _ hnan with ⟨s, herr, r, hmem, hs⟩
  have hload : load_consumption_data files = .error (.validationError s) := by
    unfold load_consumption_data
    rw [hws]
    exact herr
  exact ⟨s, ⟨r, hmem, hs⟩, hload,
    fun store table bs => import_all_error_of_load store table files bs _ hload⟩

/-- C9 amended, at a concrete input: a lone "bad" value fails the import
for an arbitrary storage state. -/
theorem c9_witness :
    ∃ s, (∃ r ∈ drop_duplicates_keep_last [⟨1, 0, .nan "bad"⟩],
          r.consumption = .nan s)
      ∧ load_consumption_data [⟨some 1, [(.naive 0, .nan "bad")]⟩]
          = .error (.validationError s)
      ∧ ∀ (store : Store) (table : List Int) (bs : Nat),
          import_all_consumption_data store table [⟨some 1, [(.naive 0, .nan "bad")]⟩] bs
            = .error (.validationError s) :=
  c9_surviving_nan_fails_import [⟨some 1, [(.naive 0, .nan "bad")]⟩]
    [⟨1, 0, .nan "bad"⟩] (by decide) ⟨⟨1, 0, .nan "bad"⟩, by decide, "bad", rfl⟩

/-! ### Deduplication, coercion and load lemmas -/

theorem mem_of_mem_dedup {l : List NRow} {x : NRow}
    (h : x ∈ drop_duplicates_keep_last l) : x ∈ l := by
  induction l with
  | nil => simp [drop_duplicates_keep_last] at h
  | cons r rest ih =>
    unfold drop_duplicates_keep_last at h
    by_cases hany : rest.any (fun y => keyN y = keyN r)
    · rw [if_pos hany] at h
      exact List.mem_cons_of_mem _ (ih h)
    · rw [if_neg hany] at h
      rcases List.mem_cons.mp h with h | h
      · exact h ▸ List.mem_cons_self r rest
      · exact List.mem_cons_of_mem _ (ih h)

theorem dedup_keys_nodup (l : List NRow) :
    ((drop_duplicates_keep_last l).map keyN).Nodup := by
  induction l with
  | nil => simp [drop_duplicates_keep_last]
  | cons r rest ih =>
    unfold drop_duplicates_keep_last
    by_cases hany : rest.any (fun y => keyN y = keyN r)
    · rw [if_pos hany]
      exact ih
    · rw [if_neg hany]
      rw [List.map_cons, List.nodup_cons]
      refine ⟨?_, ih⟩
      intro hmem
      rcases List.mem_map.mp hmem with ⟨y, hy, hkey⟩
      have hy' := mem_of_mem_dedup hy
      exact hany (List.any_eq_true.mpr ⟨y, hy', decide_eq_true hkey⟩)

theorem getLast?_cons_of_ne_nil {α : Type} (a : α) {l : List α} (h : l ≠ []) :
    (a :: l).getLast? = l.getLast? := by
  cases l with
  | nil => exact absurd rfl h
  | cons b t => exact List.getLast?_cons_cons

/-- What deduplication keeps at one key: exactly the last row of the
working set carrying that key, and nothing when the key is absent. -/
theorem dedup_filter_key (l : List NRow) (k : Int × Int) :
    (drop_duplicates_keep_last l).filter (fun r => keyN r = k)
      = ((l.filter (fun r => keyN r = k)).getLast?).toList := by
  induction l with
  | nil => simp [drop_duplicates_keep_last]
  | cons r rest ih =>
    unfold drop_duplicates_keep_last
    by_cases hany : rest.any (fun y => keyN y = keyN r)
    · rw [if_pos hany]
      rw [ih]
      by_cases hk : keyN r = k
      · have hne : rest.filter (fun x => keyN x = k) ≠ [] := by
          rcases List.any_eq_true.mp hany with ⟨y, hy, hkey⟩
          have hkey' : keyN y = keyN r := of_decide_eq_true hkey
          intro hnil
          rw [List.filter_eq_nil_iff] at hnil
          exact hnil y hy (by simp [hkey', hk])
        rw [List.filter_cons_of_pos (by simp [hk]),
          getLast?_cons_of_ne_nil _ hne]
      · rw [List.filter_cons_of_neg (by simp [hk])]
    · rw [if_neg hany]
      by_cases hk : keyN r = k
      · have hnone : rest.filter (fun x => keyN x = k) = [] := by
          rw [List.filter_eq_nil_iff]
          intro y hy hkey
          have hkey' : keyN y = k := of_decide_eq_true hkey
          exact hany (List.any_eq_true.mpr ⟨y, hy, decide_eq_true (hkey'.trans hk.symm)⟩)
        rw [List.filter_cons_of_pos (by simp [hk]),
          List.filter_cons_of_pos (by simp [hk]), ih, hnone]
        simp
      · rw [List.filter_cons_of_neg (by simp [hk]),
          List.filter_cons_of_neg (by simp [hk]), ih]

/-- The float value of a cell; junk on a cell astype would reject. -/
def cellVal : Cell → ℚ
  | .num q => q
  | .nan _ => 0

/-- A working-set row as the consumption row it becomes once coerced. -/
def stripRow (r : NRow) : CRow := ⟨r.user_id, r.datetime, cellVal r.consumption⟩

theorem coerceRows_ok_eq {l : List NRow} {out : List CRow}
    (h : coerceRows l = .ok out) : out = l.map stripRow := by
  induction l generalizing out with
  | nil =>
    simp only [coerceRows] at h
    cases h
    rfl
  | cons r rest ih =>
    unfold coerceRows at h
    cases hr : r.consumption with
    | num q =>
      rw [hr] at h
      cases hrest : coerceRows rest with
      | error e => rw [hrest] at h; cases h
      | ok t =>
        rw [hrest] at h
        simp only [Except.map] at h
        cases h
        rw [List.map_cons, ← ih hrest]
        simp [stripRow, cellVal, hr]
    | nan s => rw [hr] at h; cases h

theorem load_ok_char {files : List SrcFile} {combined : List CRow}
    (h : load_consumption_data files = .ok combined) :
    ∃ rows, workingSetOf files = .ok rows
      ∧ combined = (drop_duplicates_keep_last rows).map stripRow := by
  unfold load_consumption_data at h
  cases hws : workingSetOf files with
  | error e => rw [hws] at h; cases h
  | ok rows =>
    rw [hws] at h
    exact ⟨rows, rfl, coerceRows_ok_eq h⟩

theorem combined_keys_nodup {files : List SrcFile} {combined : List CRow}
    (h : load_consumption_data files = .ok combined) :
    (combined.map keyOf).Nodup := by
  rcases load_ok_char h with ⟨rows, -, hcomb⟩
  rw [hcomb, List.map_map]
  have : (keyOf ∘ stripRow) = keyN := rfl
  rw [this]
  exact dedup_keys_nodup rows

/-! ### Lookup and fetch lemmas -/

theorem lookupLast_some_mem {l : List CRow} {k : Int × Int} {e : CRow}
    (h : lookupLast l k = some e) : e ∈ l ∧ keyOf e = k := by
  unfold lookupLast at h
  have hmem := List.mem_of_mem_getLast? h
  rw [List.mem_filter] at hmem
  exact ⟨hmem.1, of_decide_eq_true hmem.2⟩

theorem lookupLast_isSome_iff (l : List CRow) (k : Int × Int) :
    (lookupLast l k).isSome ↔ ∃ c ∈ l, keyOf c = k := by
  unfold lookupLast
  rw [List.getLast?_isSome]
  constructor
  · intro hne
    rcases List.exists_mem_of_ne_nil _ hne with ⟨c, hc⟩
    rw [List.mem_filter] at hc
    exact ⟨c, hc.1, of_decide_eq_true hc.2⟩
  · rintro ⟨c, hc, hk⟩
    intro hnil
    rw [List.filter_eq_nil_iff] at hnil
    exact hnil c hc (decide_eq_true hk)

theorem lookupLast_none_iff (l : List CRow) (k : Int × Int) :
    lookupLast l k = none ↔ ∀ c ∈ l, keyOf c ≠ k := by
  rw [← Option.not_isSome_iff_eq_none, lookupLast_isSome_iff]
  push_neg
  rfl

theorem mem_existingFetch (store : Store) (uids : List Int) (dts : List Int)
    (c : CRow) :
    c ∈ existingFetch store uids dts
      ↔ c ∈ store ∧ c.user_id ∈ uids ∧ c.datetime ∈ dts := by
  unfold existingFetch
  rw [List.mem_filter]
  simp

/-- The dict of fetched existing readings answers a working key exactly when
the Consumption table holds that key, because the working key's user id and
datetime both appear in the fetch filter's columns. -/
theorem lookup_existing_isSome_iff (store : Store) (uids : List Int)
    (dts : List Int) (k : Int × Int) (h1 : k.1 ∈ uids) (h2 : k.2 ∈ dts) :
    (lookupLast (existingFetch store uids dts) k).isSome
      ↔ k ∈ store.map keyOf := by
  rw [lookupLast_isSome_iff]
  constructor
  · rintro ⟨c, hc, hk⟩
    exact List.mem_map.mpr ⟨c, ((mem_existingFetch _ _ _ _).mp hc).1, hk⟩
  · intro hk
    rcases List.mem_map.mp hk with ⟨c, hc, hkey⟩
    refine ⟨c, (mem_existingFetch _ _ _ _).mpr ⟨hc, ?_, ?_⟩, hkey⟩
    · have : c.user_id = k.1 := by rw [← hkey]; rfl
      rw [this]; exact h1
    · have : c.datetime = k.2 := by rw [← hkey]; rfl
      rw [this]; exact h2

/-! ### Filtering a table with unique keys at one key -/

theorem filter_key_nil {st : Store} {k : Int × Int}
    (h : k ∉ st.map keyOf) : st.filter (fun c => keyOf c = k) = [] := by
  rw [List.filter_eq_nil_iff]
  intro c hc hk
  exact h (List.mem_map.mpr ⟨c, hc, of_decide_eq_true hk⟩)

theorem filter_key_singleton {st : Store} (hinv : (st.map keyOf).Nodup)
    {v : CRow} (hv : v ∈ st) :
    st.filter (fun c => keyOf c = keyOf v) = [v] := by
  induction st with
  | nil => cases hv
  | cons w st' ih =>
    rw [List.map_cons, List.nodup_cons] at hinv
    rcases List.mem_cons.mp hv with h | h
    · subst h
      rw [List.filter_cons_of_pos (by simp)]
      rw [filter_key_nil hinv.1]
    · have hne : keyOf w ≠ keyOf v := by
        intro he
        exact hinv.1 (he ▸ List.mem_map.mpr ⟨v, h, rfl⟩)
      rw [List.filter_cons_of_neg (by simpa using hne)]
      exact ih hinv.2 h

/-! ### bulk_update as a pointwise map -/

/-- The effect of the whole queued update list on one stored row. -/
def updAll (us : List CRow) (v : CRow) : CRow :=
  us.foldl (fun w u =>
    if keyOf w = keyOf u then ⟨w.user_id, w.datetime, u.consumption⟩ else w) v

theorem bulk_update_as_map (us : List CRow) (st : Store) :
    bulk_update_consumptions st us = st.map (updAll us) := by
  induction us generalizing st with
  | nil =>
    have hfn : updAll [] = id := funext (fun v => rfl)
    simp [bulk_update_consumptions, hfn]
  | cons u us' ih =>
    unfold bulk_update_consumptions at ih ⊢
    rw [List.foldl_cons, ih, List.map_map]
    apply List.map_congr_left
    intro v _
    rfl

theorem updAll_key (us : List CRow) (v : CRow) :
    keyOf (updAll us v) = keyOf v := by
  induction us generalizing v with
  | nil => rfl
  | cons u us' ih =>
    unfold updAll at ih ⊢
    rw [List.foldl_cons]
    by_cases h : keyOf v = keyOf u
    · rw [if_pos h]
      rw [ih]
      rfl
    · rw [if_neg h]
      exact ih v

theorem updAll_of_value_agree {us : List CRow} {v : CRow}
    (h : ∀ u ∈ us, keyOf u = keyOf v → u.consumption = v.consumption) :
    updAll us v = v := by
  induction us with
  | nil => rfl
  | cons u us' ih =>
    unfold updAll at ih ⊢
    rw [List.foldl_cons]
    by_cases hk : keyOf v = keyOf u
    · rw [if_pos hk]
      have hval : u.consumption = v.consumption :=
        h u (List.mem_cons_self u us') hk.symm
      have hrow : (⟨v.user_id, v.datetime, u.consumption⟩ : CRow) = v := by
        rw [hval]
      rw [hrow]
      exact ih (fun u' hu' => h u' (List.mem_cons_of_mem _ hu'))
    · rw [if_neg hk]
      exact ih (fun u' hu' => h u' (List.mem_cons_of_mem _ hu'))

theorem updAll_single {us : List CRow} {v u0 : CRow}
    (h : us.filter (fun u => keyOf u = keyOf v) = [u0]) :
    updAll us v = ⟨v.user_id, v.datetime, u0.consumption⟩ := by
  induction us generalizing v with
  | nil => cases h
  | cons u us' ih =>
    by_cases hk : keyOf u = keyOf v
    · rw [List.filter_cons_of_pos (by simpa using hk)] at h
      injection h with hu hrest
      subst hu
      unfold updAll
      rw [List.foldl_cons, if_pos hk.symm]
      rw [List.filter_eq_nil_iff] at hrest
      exact @updAll_of_value_agree us' ⟨v.user_id, v.datetime, u.consumption⟩
        (fun u' hu' hku' => absurd (decide_eq_true hku') (hrest u' hu'))
    · rw [List.filter_cons_of_neg (by simpa using hk)] at h
      unfold updAll
      rw [List.foldl_cons, if_neg (fun he => hk he.symm)]
      exact ih h

/-! ### The create/update partition in closed form -/

/-- The update list the partition loop of lines 114-120 accumulates. -/
def cudUpdates (existing : List CRow) : List CRow → List CRow
  | [] => []
  | r :: rest =>
    match lookupLast existing (keyOf r) with
    | some e => ⟨e.user_id, e.datetime, r.consumption⟩ :: cudUpdates existing rest
    | none => cudUpdates existing rest

theorem cudUpdates_eq_cons {existing : List CRow} {r : CRow} {rest : List CRow}
    {e : CRow} (hl : lookupLast existing (keyOf r) = some e) :
    cudUpdates existing (r :: rest)
      = ⟨e.user_id, e.datetime, r.consumption⟩ :: cudUpdates existing rest := by
  rw [cudUpdates, hl]

theorem cudUpdates_eq_skip {existing : List CRow} {r : CRow} {rest : List CRow}
    (hl : lookupLast existing (keyOf r) = none) :
    cudUpdates existing (r :: rest) = cudUpdates existing rest := by
  rw [cudUpdates, hl]

theorem make_cud_aux (existing : List CRow) (rows : List CRow) :
    ∀ (c0 u0 : List CRow),
      rows.foldl (fun cu r =>
        match lookupLast existing (keyOf r) with
        | some e => (cu.1, cu.2 ++ [⟨e.user_id, e.datetime, r.consumption⟩])
        | none => (cu.1 ++ [⟨r.user_id, r.datetime, r.consumption⟩], cu.2)) (c0, u0)
      = (c0 ++ rows.filter (fun r => (lookupLast existing (keyOf r)).isNone),
         u0 ++ cudUpdates existing rows) := by
  induction rows with
  | nil => intro c0 u0; simp [cudUpdates]
  | cons r rest ih =>
    intro c0 u0
    rw [List.foldl_cons]
    cases hl : lookupLast existing (keyOf r) with
    | some e =>
      simp only [hl]
      rw [ih]
      rw [List.filter_cons_of_neg (by simp [hl])]
      rw [cudUpdates_eq_cons hl]
      simp
    | none =>
      simp only [hl]
      rw [ih]
      rw [List.filter_cons_of_pos (by simp [hl])]
      rw [cudUpdates_eq_skip hl]
      have hrow : (⟨r.user_id, r.datetime, r.consumption⟩ : CRow) = r := rfl
      simp [hrow]

theorem make_cud_eq (rows existing : List CRow) :
    make_consumption_cud rows existing
      = (rows.filter (fun r => (lookupLast existing (keyOf r)).isNone),
         cudUpdates existing rows) := by
  unfold make_consumption_cud
  rw [make_cud_aux]
  simp

theorem mem_cudUpdates {existing rows : List CRow} {u : CRow}
    (h : u ∈ cudUpdates existing rows) :
    ∃ r ∈ rows, ∃ e, lookupLast existing (keyOf r) = some e
      ∧ u = ⟨e.user_id, e.datetime, r.consumption⟩ ∧ keyOf u = keyOf r := by
  induction rows with
  | nil => cases h
  | cons r rest ih =>
    cases hl : lookupLast existing (keyOf r) with
    | some e =>
      rw [cudUpdates_eq_cons hl] at h
      rcases List.mem_cons.mp h with h | h
      · refine ⟨r, List.mem_cons_self r rest, e, hl, h, ?_⟩
        rw [h]
        exact (lookupLast_some_mem hl).2
      · rcases ih h with ⟨r', hr', e', hl', hu', hk'⟩
        exact ⟨r', List.mem_cons_of_mem _ hr', e', hl', hu', hk'⟩
    | none =>
      rw [cudUpdates_eq_skip hl] at h
      rcases ih h with ⟨r', hr', e', hl', hu', hk'⟩
      exact ⟨r', List.mem_cons_of_mem _ hr', e', hl', hu', hk'⟩

theorem cudUpdates_keys_sublist (existing rows : List CRow) :
    ((cudUpdates existing rows).map keyOf).Sublist (rows.map keyOf) := by
  induction rows with
  | nil => simp [cudUpdates]
  | cons r rest ih =>
    cases hl : lookupLast existing (keyOf r) with
    | some e =>
      rw [cudUpdates_eq_cons hl]
      rw [List.map_cons, List.map_cons]
      have hk : keyOf (⟨e.user_id, e.datetime, r.consumption⟩ : CRow) = keyOf r := by
        have := (lookupLast_some_mem hl).2
        unfold keyOf at this ⊢
        rw [show ((⟨e.user_id, e.datetime, r.consumption⟩ : CRow).user_id,
          (⟨e.user_id, e.datetime, r.consumption⟩ : CRow).datetime) = (e.user_id, e.datetime) from rfl]
        exact this
      rw [hk]
      exact List.Sublist.cons₂ _ ih
    | none =>
      rw [cudUpdates_eq_skip hl, List.map_cons]
      exact List.Sublist.cons _ ih

theorem cudUpdates_filter_key {existing rows : List CRow}
    (hnd : (rows.map keyOf).Nodup) {r : CRow} (hr : r ∈ rows) {e : CRow}
    (he : lookupLast existing (keyOf r) = some e) :
    (cudUpdates existing rows).filter (fun u => keyOf u = keyOf r)
      = [⟨e.user_id, e.datetime, r.consumption⟩] := by
  induction rows with
  | nil => cases hr
  | cons x rest ih =>
    rw [List.map_cons, List.nodup_cons] at hnd
    rcases List.mem_cons.mp hr with hx | hx
    · subst hx
      rw [cudUpdates_eq_cons he]
      have hk : keyOf (⟨e.user_id, e.datetime, r.consumption⟩ : CRow) = keyOf r :=
        (lookupLast_some_mem he).2
      rw [List.filter_cons_of_pos (by simpa using hk)]
      have hnil : (cudUpdates existing rest).filter (fun u => keyOf u = keyOf r) = [] := by
        rw [List.filter_eq_nil_iff]
        intro u hu hku
        rcases mem_cudUpdates hu with ⟨r', hr', e', -, -, hk'⟩
        have : keyOf u ∈ rest.map keyOf := hk' ▸ List.mem_map.mpr ⟨r', hr', rfl⟩
        exact hnd.1 (of_decide_eq_true hku ▸ this)
      rw [hnil]
    · have hne : keyOf x ≠ keyOf r := by
        intro hcontra
        exact hnd.1 (hcontra ▸ List.mem_map.mpr ⟨r, hx, rfl⟩)
      cases hl : lookupLast existing (keyOf x) with
      | some e' =>
        have hk' : keyOf (⟨e'.user_id, e'.datetime, x.consumption⟩ : CRow) = keyOf x :=
          (lookupLast_some_mem hl).2
        rw [cudUpdates_eq_cons hl]
        rw [List.filter_cons_of_neg (by simp [hk']; exact fun hcc => hne hcc)]
        exact ih hnd.2 hx
      | none =>
        rw [cudUpdates_eq_skip hl]
        exact ih hnd.2 hx

/-! ### One import run in closed form -/

/-- The distinct user ids of the working set (import.py line 138). -/
def importUids (combined : List CRow) : List Int :=
  uniqueFirst (combined.map (fun c => c.user_id))

/-- The datetime column of the working set (import.py line 148). -/
def importDts (combined : List CRow) : List Int :=
  combined.map (fun c => c.datetime)

/-- The existing readings one run fetches (import.py lines 147-150). -/
def importExisting (store : Store) (combined : List CRow) : List CRow :=
  existingFetch store (importUids combined) (importDts combined)

/-- The create list one run partitions out. -/
def importCreates (store : Store) (combined : List CRow) : List CRow :=
  combined.filter (fun r => (lookupLast (importExisting store combined) (keyOf r)).isNone)

/-- The update list one run partitions out. -/
def importUpdates (store : Store) (combined : List CRow) : List CRow :=
  cudUpdates (importExisting store combined) combined

/-- The Consumption table one successful run leaves behind. -/
def importResult (store : Store) (combined : List CRow) : Store :=
  bulk_update_consumptions (store ++ importCreates store combined)
    (importUpdates store combined)

theorem import_all_ok_char (store : Store) (table : List Int)
    (files : List SrcFile) (bs : Nat) (hbs : 0 < bs) (combined : List CRow)
    (hload : load_consumption_data files = .ok combined)
    (hmiss : firstMissingUser (importUids combined) table = none) :
    import_all_consumption_data store table files bs
      = .ok (importResult store combined) := by
  rw [import_all_applied store table files bs hbs combined hload hmiss]
  rw [make_cud_eq]
  rfl

theorem import_all_ok_inv (store : Store) (table : List Int)
    (files : List SrcFile) (bs : Nat) (store₁ : Store)
    (h : import_all_consumption_data store table files bs = .ok store₁) :
    ∃ combined, load_consumption_data files = .ok combined
      ∧ firstMissingUser (importUids combined) table = none := by
  unfold import_all_consumption_data at h
  cases hload : load_consumption_data files with
  | error e => rw [hload] at h; cases h
  | ok combined =>
    rw [hload] at h
    dsimp only at h
    cases hmiss : firstMissingUser (uniqueFirst (combined.map (fun c => c.user_id)))
        table with
    | some uid => rw [hmiss] at h; cases h
    | none => exact ⟨combined, rfl, hmiss⟩

/-- The fetched dict answers a working row's key exactly when the
Consumption table holds the key. -/
theorem lookup_existing_row (store : Store) (combined : List CRow) (r : CRow)
    (hr : r ∈ combined) :
    (lookupLast (importExisting store combined) (keyOf r)).isSome
      ↔ keyOf r ∈ store.map keyOf := by
  apply lookup_existing_isSome_iff
  · exact (mem_uniqueFirst _ _).mpr (List.mem_map.mpr ⟨r, hr, rfl⟩)
  · exact List.mem_map.mpr ⟨r, hr, rfl⟩

theorem lookup_existing_row_none (store : Store) (combined : List CRow) (r : CRow)
    (hr : r ∈ combined) :
    lookupLast (importExisting store combined) (keyOf r) = none
      ↔ keyOf r ∉ store.map keyOf := by
  rw [← Option.not_isSome_iff_eq_none, lookup_existing_row store combined r hr]

theorem mem_importCreates {store : Store} {combined : List CRow} {r : CRow}
    (h : r ∈ importCreates store combined) :
    r ∈ combined ∧ keyOf r ∉ store.map keyOf := by
  unfold importCreates at h
  rw [List.mem_filter] at h
  refine ⟨h.1, ?_⟩
  rw [← lookup_existing_row_none store combined r h.1]
  exact Option.isNone_iff_eq_none.mp h.2

theorem importResult_keys (store : Store) (combined : List CRow) :
    (importResult store combined).map keyOf
      = store.map keyOf ++ (importCreates store combined).map keyOf := by
  unfold importResult
  rw [bulk_update_as_map, List.map_map]
  have : (keyOf ∘ updAll (importUpdates store combined))
      = fun v => keyOf v := funext (fun v => updAll_key _ v)
  rw [this, ← List.map_append]

theorem importResult_unique (store : Store) (combined : List CRow)
    (hinv : (store.map keyOf).Nodup) (hcomb : (combined.map keyOf).Nodup) :
    ((importResult store combined).map keyOf).Nodup := by
  rw [importResult_keys]
  rw [List.nodup_append]
  refine ⟨hinv, ?_, ?_⟩
  · exact List.Nodup.sublist
      (List.Sublist.map keyOf (List.filter_sublist combined)) hcomb
  · intro a ha hb
    rcases List.mem_map.mp hb with ⟨r, hr, hk⟩
    exact (mem_importCreates hr).2 (hk ▸ ha)

theorem filter_key_map_updAll (us : List CRow) (l : List CRow) (k : Int × Int) :
    (l.map (updAll us)).filter (fun c => keyOf c = k)
      = (l.filter (fun c => keyOf c = k)).map (updAll us) := by
  rw [List.filter_map]
  congr 1
  apply List.filter_congr
  intro a _
  simp [Function.comp, updAll_key]

/-- The combined working set filtered to one of its keys is exactly that
row, keys being unique after deduplication. -/
theorem importCreates_filter_key {store : Store} {combined : List CRow}
    (hcomb : (combined.map keyOf).Nodup) {r : CRow} (hr : r ∈ combined)
    (hnew : lookupLast (importExisting store combined) (keyOf r) = none) :
    (importCreates store combined).filter (fun c => keyOf c = keyOf r) = [r] := by
  unfold importCreates
  rw [List.filter_comm]
  rw [filter_key_singleton hcomb hr]
  rw [List.filter_cons_of_pos (by simp [hnew])]
  rfl

/-- The value each working row ends with: after one successful run, the
result table holds, at that row's key, exactly that row. -/
theorem importResult_row (store : Store) (combined : List CRow)
    (hinv : (store.map keyOf).Nodup) (hcomb : (combined.map keyOf).Nodup)
    (r : CRow) (hr : r ∈ combined) :
    (importResult store combined).filter (fun c => keyOf c = keyOf r) = [r] := by
  unfold importResult
  rw [bulk_update_as_map, filter_key_map_updAll, List.filter_append]
  cases hl : lookupLast (importExisting store combined) (keyOf r) with
  | none =>
    have hnotin : keyOf r ∉ store.map keyOf :=
      (lookup_existing_row_none store combined r hr).mp hl
    rw [filter_key_nil hnotin, importCreates_filter_key hcomb hr hl]
    rw [List.nil_append, List.map_cons, List.map_nil]
    have hnomatch : ∀ u ∈ importUpdates store combined, keyOf u ≠ keyOf r := by
      intro u hu
      rcases mem_cudUpdates hu with ⟨r', hr', e', hl', -, hk'⟩
      have hin : keyOf r' ∈ store.map keyOf := by
        rw [← lookup_existing_row store combined r' hr']
        rw [hl']
        rfl
      intro hcontra
      exact hnotin (hcontra ▸ hk' ▸ hin)
    rw [updAll_of_value_agree (fun u hu hk => absurd hk (hnomatch u hu))]
  | some e =>
    have hin : keyOf r ∈ store.map keyOf := by
      rw [← lookup_existing_row store combined r hr, hl]
      rfl
    rcases List.mem_map.mp hin with ⟨v0, hv0, hkv0⟩
    have hstore : store.filter (fun c => keyOf c = keyOf r) = [v0] := by
      rw [← hkv0]
      exact filter_key_singleton hinv hv0
    have hcre : (importCreates store combined).filter (fun c => keyOf c = keyOf r)
        = [] := by
      rw [List.filter_eq_nil_iff]
      intro a ha hk
      exact (mem_importCreates ha).2 (of_decide_eq_true hk ▸ hin)
    rw [hstore, hcre, List.append_nil, List.map_cons, List.map_nil]
    have hufil : (importUpdates store combined).filter
        (fun u => keyOf u = keyOf v0) = [⟨e.user_id, e.datetime, r.consumption⟩] := by
      rw [hkv0]
      exact cudUpdates_filter_key hcomb hr hl
    rw [updAll_single hufil]
    have hk1 : v0.user_id = r.user_id ∧ v0.datetime = r.datetime := by
      have := hkv0
      unfold keyOf at this
      rw [Prod.mk.injEq] at this
      exact this
    have : (⟨v0.user_id, v0.datetime, r.consumption⟩ : CRow)
        = (⟨r.user_id, r.datetime, r.consumption⟩ : CRow) := by
      rw [hk1.1, hk1.2]
    rw [this]

/-- Every working key is present in the result table. -/
theorem importResult_has_keys (store : Store) (combined : List CRow)
    (r : CRow) (hr : r ∈ combined) :
    keyOf r ∈ (importResult store combined).map keyOf := by
  rw [importResult_keys, List.mem_append]
  cases hl : lookupLast (importExisting store combined) (keyOf r) with
  | some e =>
    left
    rw [← lookup_existing_row store combined r hr, hl]
    rfl
  | none =>
    right
    refine List.mem_map.mpr ⟨r, ?_, rfl⟩
    unfold importCreates
    rw [List.mem_filter]
    exact ⟨hr, by simp [hl]⟩

/-! ### C6: the unique (user, datetime) invariant is preserved -/

/-- C6.  From a Consumption table satisfying the unique (user, timestamp)
constraint, any successful run of import_all_consumption_data yields a
table still satisfying it, for every source, user table and positive batch
size: creates carry only deduplicated working keys absent from the table,
and updates rewrite values in place without touching keys. -/
theorem c6_unique_key_invariant_preserved
    (store : Store) (table : List Int) (files : List SrcFile) (bs : Nat)
    (store₁ : Store) (hinv : uniqueUserDatetime store) (hbs : 0 < bs)
    (h1 : import_all_consumption_data store table files bs = .ok store₁) :
    uniqueUserDatetime store₁ := by
  rcases import_all_ok_inv store table files bs store₁ h1 with ⟨combined, hload, hmiss⟩
  have hchar := import_all_ok_char store table files bs hbs combined hload hmiss
  rw [h1] at hchar
  have hst : store₁ = importResult store combined := Except.ok.inj hchar
  rw [hst]
  exact importResult_unique store combined hinv (combined_keys_nodup hload)

/-- C6 at a concrete input: two readings of one user at distinct instants
land in a table with distinct keys. -/
theorem c6_witness : uniqueUserDatetime [⟨2, 0, 3⟩, ⟨2, 1440, 4⟩] :=
  c6_unique_key_invariant_preserved [] [2]
    [⟨some 2, [(.naive 0, .num 3), (.naive 1440, .num 4)]⟩] 1
    [⟨2, 0, 3⟩, ⟨2, 1440, 4⟩] (by decide) (by decide) (by decide)

/-! ### C3: re-running the consumption import is idempotent -/

/-- C3.  When a consumption import from a unique-keyed table succeeds,
running it again on the unchanged source leaves the table exactly as the
first run left it: during the second run every working row finds its key
already stored, so the create list is empty, every row is classified as an
update, and each update writes the value the first run already stored. -/
theorem c3_reimport_idempotent
    (store : Store) (table : List Int) (files : List SrcFile) (bs : Nat)
    (store₁ : Store) (hinv : uniqueUserDatetime store) (hbs : 0 < bs)
    (h1 : import_all_consumption_data store table files bs = .ok store₁) :
    import_all_consumption_data store₁ table files bs = .ok store₁
      ∧ ∀ combined, load_consumption_data files = .ok combined →
          (make_consumption_cud combined (existingFetch store₁
            (uniqueFirst (combined.map (fun c => c.user_id)))
            (combined.map (fun c => c.datetime)))).1 = [] := by
  rcases import_all_ok_inv store table files bs store₁ h1 with ⟨combined, hload, hmiss⟩
  have hchar := import_all_ok_char store table files bs hbs combined hload hmiss
  rw [h1] at hchar
  have hst : store₁ = importResult store combined := Except.ok.inj hchar
  have hcomb := combined_keys_nodup hload
  have hinv' : (store.map keyOf).Nodup := hinv
  have hkeys : ∀ r ∈ combined, keyOf r ∈ store₁.map keyOf := by
    intro r hr
    rw [hst]
    exact importResult_has_keys store combined r hr
  have hcre2 : importCreates store₁ combined = [] := by
    unfold importCreates
    rw [List.filter_eq_nil_iff]
    intro r hr his
    have hsome : (lookupLast (importExisting store₁ combined) (keyOf r)).isSome :=
      (lookup_existing_row store₁ combined r hr).mpr (hkeys r hr)
    rw [Option.isNone_iff_eq_none.mp his] at hsome
    cases hsome
  have hval : ∀ r ∈ combined, store₁.filter (fun c => keyOf c = keyOf r) = [r] := by
    intro r hr
    rw [hst]
    exact importResult_row store combined hinv' hcomb r hr
  have hres2 : importResult store₁ combined = store₁ := by
    unfold importResult
    rw [hcre2, List.append_nil, bulk_update_as_map]
    have hfix : ∀ v ∈ store₁, updAll (importUpdates store₁ combined) v = v := by
      intro v hv
      apply updAll_of_value_agree
      intro u hu hk
      rcases mem_cudUpdates hu with ⟨r', hr', e', -, hu', hk'⟩
      have hcons : u.consumption = r'.consumption := by rw [hu']
      have hkv : keyOf v = keyOf r' := by rw [← hk, hk']
      have hvmem : v ∈ store₁.filter (fun c => keyOf c = keyOf r') :=
        List.mem_filter.mpr ⟨hv, decide_eq_true hkv⟩
      rw [hval r' hr', List.mem_singleton] at hvmem
      rw [hcons, hvmem]
    calc store₁.map (updAll (importUpdates store₁ combined))
        = store₁.map id := List.map_congr_left (fun a ha => hfix a ha)
      _ = store₁ := List.map_id store₁
  constructor
  · rw [import_all_ok_char store₁ table files bs hbs combined hload hmiss, hres2]
  · intro combined' hload'
    rw [hload] at hload'
    have hceq : combined = combined' := Except.ok.inj hload'
    rw [← hceq, make_cud_eq]
    exact hcre2

/-- C3 at a concrete input: importing one reading twice stores it once. -/
theorem c3_witness :
    import_all_consumption_data [⟨1, 0, 5⟩] [1] [⟨some 1, [(.naive 0, .num 5)]⟩] 1
        = .ok [⟨1, 0, 5⟩]
      ∧ ∀ combined,
          load_consumption_data [⟨some 1, [(.naive 0, .num 5)]⟩] = .ok combined →
          (make_consumption_cud combined (existingFetch [⟨1, 0, 5⟩]
            (uniqueFirst (combined.map (fun c => c.user_id)))
            (combined.map (fun c => c.datetime)))).1 = [] :=
  c3_reimport_idempotent [] [1] [⟨some 1, [(.naive 0, .num 5)]⟩] 1
    [⟨1, 0, 5⟩] (by decide) (by decide) (by decide)

/-! ### C7: the last duplicate in concatenation order wins -/

/-- C7.  When the combined working set holds two or more rows with one
(user_id, datetime) key, deduplication keeps exactly the last of them in
concatenation order, and after a successful import the table stores, at
that key, exactly that last row's consumption value. -/
theorem c7_last_duplicate_wins
    (store : Store) (table : List Int) (files : List SrcFile) (bs : Nat)
    (store₁ : Store) (rows : List NRow) (k : Int × Int) (rlast : NRow) (v : ℚ)
    (hinv : uniqueUserDatetime store) (hbs : 0 < bs)
    (hws : workingSetOf files = .ok rows)
    (_hdup : 2 ≤ (rows.filter (fun x => keyN x = k)).length)
    (hlast : (rows.filter (fun x => keyN x = k)).getLast? = some rlast)
    (hnum : rlast.consumption = .num v)
    (himp : import_all_consumption_data store table files bs = .ok store₁) :
    (drop_duplicates_keep_last rows).filter (fun x => keyN x = k) = [rlast]
      ∧ (store₁.filter (fun c => keyOf c = k)).map (fun c => c.consumption)
          = [v] := by
  have hded : (drop_duplicates_keep_last rows).filter (fun x => keyN x = k)
      = [rlast] := by
    rw [dedup_filter_key, hlast]
    rfl
  refine ⟨hded, ?_⟩
  rcases import_all_ok_inv _ _ _ _ _ himp with ⟨combined, hload, hmiss⟩
  have hchar := import_all_ok_char store table files bs hbs combined hload hmiss
  rw [himp] at hchar
  have hst : store₁ = importResult store combined := Except.ok.inj hchar
  have hcomb := combined_keys_nodup hload
  rcases load_ok_char hload with ⟨rows', hws', hceq⟩
  rw [hws] at hws'
  have hroweq : rows = rows' := Except.ok.inj hws'
  rw [← hroweq] at hceq
  have hrl_fil : rlast ∈ (drop_duplicates_keep_last rows).filter
      (fun x => keyN x = k) := by
    rw [hded]
    exact List.mem_singleton.mpr rfl
  have hrl_mem : rlast ∈ drop_duplicates_keep_last rows :=
    (List.mem_filter.mp hrl_fil).1
  have hrl_key : keyN rlast = k := of_decide_eq_true (List.mem_filter.mp hrl_fil).2
  have hr_mem : stripRow rlast ∈ combined := by
    rw [hceq]
    exact List.mem_map.mpr ⟨rlast, hrl_mem, rfl⟩
  have hrow := importResult_row store combined hinv hcomb (stripRow rlast) hr_mem
  have hkey_eq : keyOf (stripRow rlast) = k := hrl_key
  rw [hkey_eq] at hrow
  rw [hst, hrow]
  simp [stripRow, cellVal, hnum]

/-- C7 at a concrete input: of two rows at one key, the later row's value 2
is the one stored. -/
theorem c7_witness :
    (drop_duplicates_keep_last [⟨1, 0, .num 1⟩, ⟨1, 0, .num 2⟩]).filter
        (fun x => keyN x = (1, 0)) = [⟨1, 0, .num 2⟩]
      ∧ (([⟨1, 0, 2⟩] : Store).filter (fun c => keyOf c = (1, 0))).map
          (fun c => c.consumption) = [2] :=
  c7_last_duplicate_wins [] [1] [⟨some 1, [(.naive 0, .num 1), (.naive 0, .num 2)]⟩]
    1000 [⟨1, 0, 2⟩] [⟨1, 0, .num 1⟩, ⟨1, 0, .num 2⟩] (1, 0) ⟨1, 0, .num 2⟩ 2
    (by decide) (by decide) (by decide) (by decide) (by decide) (by decide) (by decide)

/-! ### Aggregation engine (statistics.py) -/

/-- Minutes per calendar day, fixing the granularity instants are stored
at. -/
def minutesPerDay : Int := 1440

/-- DATE_TRUNC("day", datetime) and TruncDate: the calendar-date bucket of
an instant. -/
def dateOf (t : Int) : Int := Int.fdiv t minutesPerDay

/-- ORDER BY over integer keys. -/
def sortedInts (l : List Int) : List Int :=
  List.insertionSort (fun a b => a ≤ b) l

/-- ORDER BY daily_total inside a percentile group. -/
def sortedRats (l : List ℚ) : List ℚ :=
  List.insertionSort (fun a b => a ≤ b) l

/-- The daily_totals CTE of get_daily_percentiles_for_all (statistics.py
lines 45-52): one row (user_id, date, daily_total) per (user_id, date)
group, the total summing that group's consumption. -/
def daily_totals_cte (store : Store) : List (Int × Int × ℚ) :=
  (uniqueFirst (store.map (fun c => (c.user_id, dateOf c.datetime)))).map
    (fun k => (k.1, k.2,
      ((store.filter (fun c => c.user_id = k.1 ∧ dateOf c.datetime = k.2)).map
        (fun c => c.consumption)).sum))

/-- PERCENTILE_CONT(p) WITHIN GROUP (ORDER BY daily_total), the storage
engine's continuous percentile over the sorted group: linear interpolation
between the order statistics adjacent to rank p * (n - 1). -/
def percentile_cont (p : ℚ) (sorted : List ℚ) : ℚ :=
  let r := p * ((sorted.length : ℚ) - 1)
  sorted.getD (⌊r⌋).toNat 0
    + (r - (⌊r⌋ : ℚ)) * (sorted.getD (⌈r⌉).toNat 0 - sorted.getD (⌊r⌋).toNat 0)

/-- One row of the percentile report. -/
structure PercRow where
  date : Int
  p10 : ℚ
  p50 : ℚ
  p90 : ℚ
deriving DecidableEq

/-- get_daily_percentiles_for_all (statistics.py lines 28-67): the SQL
query's outer SELECT, grouping the daily totals by date, taking the 0.1,
0.5 and 0.9 continuous percentiles of each date's per-user totals, ordered
by date. -/
def get_daily_percentiles_for_all (store : Store) : List PercRow :=
  let dt := daily_totals_cte store
  (sortedInts (uniqueFirst (dt.map (fun x => x.2.1)))).map (fun d =>
    let totals := sortedRats ((dt.filter (fun x => x.2.1 = d)).map (fun x => x.2.2))
    ⟨d, percentile_cont (1 / 10) totals, percentile_cont (5 / 10) totals,
      percentile_cont (9 / 10) totals⟩)

/-- The claim's percentile formula, from the spec's words: rank index
r = p / 100 * (n - 1) over n sorted values, result
v[floor r] + (r - floor r) * (v[ceil r] - v[floor r]). -/
def spec_percentile (p : ℚ) (sorted : List ℚ) : ℚ :=
  let r := p / 100 * ((sorted.length : ℚ) - 1)
  sorted.getD (⌊r⌋).toNat 0
    + (r - (⌊r⌋ : ℚ)) * (sorted.getD (⌈r⌉).toNat 0 - sorted.getD (⌊r⌋).toNat 0)

/-- The claim's first stage, from the spec's words: one user's per-date
total is the sum of that user's readings on that date. -/
def spec_user_date_total (store : Store) (u : Int) (d : Int) : ℚ :=
  ((store.filter (fun c => c.user_id = u ∧ dateOf c.datetime = d)).map
    (fun c => c.consumption)).sum

/-- The claim's statement of the whole computation, from the spec's words:
for each date carrying readings, collect the per-user totals of the users
reading on that date, sort them, and take the 10th, 50th and 90th
percentiles by the interpolation formula. -/
def spec_daily_percentiles (store : Store) : List PercRow :=
  (sortedInts (uniqueFirst (store.map (fun c => dateOf c.datetime)))).map (fun d =>
    let users := uniqueFirst ((store.filter (fun c => dateOf c.datetime = d)).map
      (fun c => c.user_id))
    let totals := sortedRats (users.map (fun u => spec_user_date_total store u d))
    ⟨d, spec_percentile 10 totals, spec_percentile 50 totals,
      spec_percentile 90 totals⟩)

/-! ### Sorting and permutation helpers -/

theorem insertionSort_eq_of_perm {α : Type} [LinearOrder α] {l₁ l₂ : List α}
    (h : l₁.Perm l₂) :
    List.insertionSort (fun a b => a ≤ b) l₁
      = List.insertionSort (fun a b => a ≤ b) l₂ :=
  List.eq_of_perm_of_sorted
    (((List.perm_insertionSort _ l₁).trans h).trans
      (List.perm_insertionSort _ l₂).symm)
    (List.sorted_insertionSort _ l₁) (List.sorted_insertionSort _ l₂)

theorem perm_of_nodup_mem_iff {α : Type} [DecidableEq α] {l₁ l₂ : List α}
    (h₁ : l₁.Nodup) (h₂ : l₂.Nodup) (h : ∀ a, a ∈ l₁ ↔ a ∈ l₂) : l₁.Perm l₂ :=
  List.perm_of_nodup_nodup_toFinset_eq h₁ h₂ (by
    ext a
    simp only [List.mem_toFinset]
    exact h a)

theorem mem_sortedInts (l : List Int) (a : Int) : a ∈ sortedInts l ↔ a ∈ l :=
  List.mem_insertionSort _

/-! ### The percentile query refines the spec's two-stage description -/

theorem mem_cte_dates (store : Store) (d : Int) :
    d ∈ (daily_totals_cte store).map (fun x => x.2.1)
      ↔ ∃ c ∈ store, dateOf c.datetime = d := by
  unfold daily_totals_cte
  rw [List.map_map]
  constructor
  · intro h
    rcases List.mem_map.mp h with ⟨k, hk, hkd⟩
    have hk' := (mem_uniqueFirst _ _).mp hk
    rcases List.mem_map.mp hk' with ⟨c, hc, hck⟩
    refine ⟨c, hc, ?_⟩
    have h2 : dateOf c.datetime = k.2 := by rw [← hck]
    rw [h2]
    exact hkd
  · rintro ⟨c, hc, hcd⟩
    apply List.mem_map.mpr
    exact ⟨(c.user_id, dateOf c.datetime),
      (mem_uniqueFirst _ _).mpr (List.mem_map.mpr ⟨c, hc, rfl⟩), hcd⟩

theorem cte_dates_eq (store : Store) :
    sortedInts (uniqueFirst ((daily_totals_cte store).map (fun x => x.2.1)))
      = sortedInts (uniqueFirst (store.map (fun c => dateOf c.datetime))) := by
  apply insertionSort_eq_of_perm
  apply perm_of_nodup_mem_iff (nodup_uniqueFirst _) (nodup_uniqueFirst _)
  intro d
  rw [mem_uniqueFirst, mem_uniqueFirst, mem_cte_dates]
  constructor
  · rintro ⟨c, hc, hcd⟩
    exact List.mem_map.mpr ⟨c, hc, hcd⟩
  · intro h
    rcases List.mem_map.mp h with ⟨c, hc, hcd⟩
    exact ⟨c, hc, hcd⟩

theorem per_date_totals_eq (store : Store) (d : Int) :
    sortedRats (((daily_totals_cte store).filter (fun x => x.2.1 = d)).map
        (fun x => x.2.2))
      = sortedRats ((uniqueFirst ((store.filter
          (fun c => dateOf c.datetime = d)).map (fun c => c.user_id))).map
            (fun u => spec_user_date_total store u d)) := by
  apply insertionSort_eq_of_perm
  have hform : daily_totals_cte store
      = (uniqueFirst (store.map (fun c => (c.user_id, dateOf c.datetime)))).map
          (fun k => (k.1, k.2, spec_user_date_total store k.1 k.2)) := rfl
  rw [hform, List.filter_map, List.map_map]
  have hpred : ∀ k ∈ (uniqueFirst (store.map
      (fun c => (c.user_id, dateOf c.datetime)))).filter
        ((fun x : Int × Int × ℚ => decide (x.2.1 = d))
          ∘ (fun k : Int × Int => (k.1, k.2, spec_user_date_total store k.1 k.2))),
      k.2 = d := by
    intro k hk
    have := (List.mem_filter.mp hk).2
    exact of_decide_eq_true this
  have hmapeq : ((uniqueFirst (store.map
      (fun c => (c.user_id, dateOf c.datetime)))).filter
        ((fun x : Int × Int × ℚ => decide (x.2.1 = d))
          ∘ (fun k : Int × Int => (k.1, k.2, spec_user_date_total store k.1 k.2)))).map
      ((fun x : Int × Int × ℚ => x.2.2)
        ∘ (fun k : Int × Int => (k.1, k.2, spec_user_date_total store k.1 k.2)))
      = ((uniqueFirst (store.map
          (fun c => (c.user_id, dateOf c.datetime)))).filter
            ((fun x : Int × Int × ℚ => decide (x.2.1 = d))
              ∘ (fun k : Int × Int => (k.1, k.2, spec_user_date_total store k.1 k.2)))).map
          ((fun u => spec_user_date_total store u d) ∘ Prod.fst) := by
    apply List.map_congr_left
    intro k hk
    have hk2 := hpred k hk
    show spec_user_date_total store k.1 k.2 = spec_user_date_total store k.1 d
    rw [hk2]
  rw [hmapeq, ← List.map_map]
  apply List.Perm.map
  apply perm_of_nodup_mem_iff
  · apply List.Nodup.map_on
    · intro x hx y hy hxy
      have hx2 := hpred x hx
      have hy2 := hpred y hy
      have : x = (x.1, x.2) := rfl
      rw [this]
      have hy' : y = (y.1, y.2) := rfl
      rw [hy', hxy, hx2, hy2]
    · exact (nodup_uniqueFirst _).filter _
  · exact nodup_uniqueFirst _
  · intro u
    constructor
    · intro h
      rcases List.mem_map.mp h with ⟨k, hk, hku⟩
      have hk2 := hpred k hk
      have hkmem := (List.mem_filter.mp hk).1
      rcases List.mem_map.mp ((mem_uniqueFirst _ _).mp hkmem) with ⟨c, hc, hck⟩
      apply (mem_uniqueFirst _ _).mpr
      apply List.mem_map.mpr
      refine ⟨c, ?_, ?_⟩
      · rw [List.mem_filter]
        refine ⟨hc, decide_eq_true ?_⟩
        have : dateOf c.datetime = k.2 := by rw [← hck]
        rw [this]
        exact hk2
      · have : c.user_id = k.1 := by rw [← hck]
        rw [this]
        exact hku
    · intro h
      rcases List.mem_map.mp ((mem_uniqueFirst _ _).mp h) with ⟨c, hc, hcu⟩
      have hcmem := (List.mem_filter.mp hc).1
      have hcd : dateOf c.datetime = d := of_decide_eq_true (List.mem_filter.mp hc).2
      apply List.mem_map.mpr
      refine ⟨(c.user_id, dateOf c.datetime), ?_, hcu⟩
      rw [List.mem_filter]
      refine ⟨(mem_uniqueFirst _ _).mpr (List.mem_map.mpr ⟨c, hcmem, rfl⟩), ?_⟩
      show decide ((dateOf c.datetime) = d) = true
      exact decide_eq_true hcd

theorem daily_percentiles_refines (store : Store) :
    get_daily_percentiles_for_all store = spec_daily_percentiles store := by
  unfold get_daily_percentiles_for_all spec_daily_percentiles
  dsimp only
  rw [cte_dates_eq]
  apply List.map_congr_left
  intro d _
  rw [per_date_totals_eq store d]
  have h10 : (1 / 10 : ℚ) = 10 / 100 := by norm_num
  have h50 : (5 / 10 : ℚ) = 50 / 100 := by norm_num
  have h90 : (9 / 10 : ℚ) = 90 / 100 := by norm_num
  rw [h10, h50, h90]
  rfl

theorem percentile_cont_singleton (p : ℚ) (x : ℚ) :
    percentile_cont p [x] = x := by
  unfold percentile_cont
  norm_num

theorem daily_percentiles_dates (store : Store) (d : Int) :
    (∃ pr ∈ get_daily_percentiles_for_all store, pr.date = d)
      ↔ ∃ c ∈ store, dateOf c.datetime = d := by
  unfold get_daily_percentiles_for_all
  dsimp only
  constructor
  · rintro ⟨pr, hpr, hprd⟩
    rcases List.mem_map.mp hpr with ⟨d', hd', heq⟩
    have hdd : d' = d := by
      rw [← hprd, ← heq]
    rw [← hdd]
    exact (mem_cte_dates store d').mp
      ((mem_uniqueFirst _ _).mp ((mem_sortedInts _ _).mp hd'))
  · intro h
    have hd : d ∈ sortedInts (uniqueFirst
        ((daily_totals_cte store).map (fun x => x.2.1))) :=
      (mem_sortedInts _ _).mpr ((mem_uniqueFirst _ _).mpr
        ((mem_cte_dates store d).mpr h))
    exact ⟨_, List.mem_map.mpr ⟨d, hd, rfl⟩, rfl⟩

/-- The fixture of the claim: four users, one date, totals 10, 20, 30, 40. -/
def percFixture : Store := [⟨1, 0, 10⟩, ⟨2, 0, 20⟩, ⟨3, 0, 30⟩, ⟨4, 0, 40⟩]

set_option maxRecDepth 10000 in
theorem percFixture_eval :
    get_daily_percentiles_for_all percFixture = [⟨0, 13, 25, 37⟩] := by
  have hd0 : dateOf 0 = 0 := by decide
  have hc1 : ⌈(3 / 10 : ℚ)⌉ = 1 := by rw [Int.ceil_eq_iff]; norm_num
  have hc2 : ⌈(3 / 2 : ℚ)⌉ = 2 := by rw [Int.ceil_eq_iff]; norm_num
  have hc3 : ⌈(27 / 10 : ℚ)⌉ = 3 := by rw [Int.ceil_eq_iff]; norm_num
  have hf1 : Int.fract ((3 : ℚ) / 10) = 3 / 10 := by norm_num [Int.fract]
  have hf2 : Int.fract ((3 : ℚ) / 2) = 1 / 2 := by norm_num [Int.fract]
  have hf3 : Int.fract ((27 : ℚ) / 10) = 7 / 10 := by norm_num [Int.fract]
  have ht2 : Int.toNat 2 = 2 := rfl
  have ht3 : Int.toNat 3 = 3 := rfl
  norm_num [get_daily_percentiles_for_all, daily_totals_cte, percFixture, uniqueFirst,
    sortedInts, sortedRats, List.insertionSort, List.orderedInsert, hd0,
    percentile_cont, List.sum, hc1, hc2, hc3, hf1, hf2, hf3, ht2, ht3,
    List.getElem_cons_succ, List.getElem_cons_zero]

/-- C2.  get_daily_percentiles_for_all computes, for each date with at
least one reading user, each user's per-date total first and then the
10th, 50th and 90th continuous percentiles across those totals with rank
r = p / 100 * (n - 1): it equals the spec's two-stage computation on every
table; the fixture with per-user totals 10, 20, 30, 40 yields p10 = 13,
p50 = 25, p90 = 37; a one-user group makes every percentile that user's
total; and a date appears in the output exactly when some reading falls on
it, dates with zero users being omitted. -/
theorem c2_daily_percentiles_two_stage :
    (∀ store : Store,
        get_daily_percentiles_for_all store = spec_daily_percentiles store)
      ∧ get_daily_percentiles_for_all percFixture = [⟨0, 13, 25, 37⟩]
      ∧ (∀ (p x : ℚ), percentile_cont p [x] = x)
      ∧ ∀ (store : Store) (d : Int),
          (∃ pr ∈ get_daily_percentiles_for_all store, pr.date = d)
            ↔ ∃ c ∈ store, dateOf c.datetime = d :=
  ⟨daily_percentiles_refines, percFixture_eval, percentile_cont_singleton,
    daily_percentiles_dates⟩

/-! ### C5: userDailyTotals on a missing or reading-less user -/

/-- get_user_daily_total_consumptions (statistics.py lines 138-160): filter
the Consumption table to one user id, bucket by date, sum, order by date.
The function consults no User table and raises nothing. -/
def get_user_daily_total_consumptions (store : Store) (user_id : Int) :
    List (Int × ℚ) :=
  let rows := store.filter (fun c => c.user_id = user_id)
  (sortedInts (uniqueFirst (rows.map (fun c => dateOf c.datetime)))).map (fun d =>
    (d, ((rows.filter (fun c => dateOf c.datetime = d)).map
      (fun c => c.consumption)).sum))

/-- The error the spec's claim expects of aggregation-side lookups. -/
inductive StatError where
  | notFoundError
deriving DecidableEq

/-- The claim's reading of userDailyTotals, from the spec's words: fail
with NotFound when no user with the id exists, else the daily totals. -/
def spec_user_daily_totals (table : List Int) (store : Store) (user_id : Int) :
    Except StatError (List (Int × ℚ)) :=
  if user_id ∈ table then .ok (get_user_daily_total_consumptions store user_id)
  else .error .notFoundError

/-- C5 fails as stated: for user id 99, absent from a User table holding
only user 1, the spec's reading demands NotFound, but the code returns the
empty frame - the plain filter of statistics.py line 154 never checks user
existence. -/
theorem c5_counterexample_no_notfound :
    spec_user_daily_totals [1] [⟨1, 0, 10⟩] 99 = .error .notFoundError
      ∧ get_user_daily_total_consumptions [⟨1, 0, 10⟩] 99 = []
      ∧ Except.ok (get_user_daily_total_consumptions [⟨1, 0, 10⟩] 99)
          ≠ spec_user_daily_totals [1] [⟨1, 0, 10⟩] 99 := by
  refine ⟨by decide, by decide, by decide⟩

/-- C5 amended: get_user_daily_total_consumptions never fails and consults
no user table; whenever the user has no readings - because no such user
exists, or the user merely has none - it returns the empty sequence. -/
theorem c5_no_readings_empty (store : Store) (user_id : Int)
    (h : ∀ c ∈ store, c.user_id ≠ user_id) :
    get_user_daily_total_consumptions store user_id = [] := by
  have hfil : store.filter (fun c => c.user_id = user_id) = [] := by
    rw [List.filter_eq_nil_iff]
    intro c hc hcu
    exact h c hc (of_decide_eq_true hcu)
  unfold get_user_daily_total_consumptions
  dsimp only
  rw [hfil]
  rfl

/-- C5 amended, at a concrete input: a user id with no readings yields the
empty sequence. -/
theorem c5_witness : get_user_daily_total_consumptions [⟨1, 0, 10⟩] 99 = [] :=
  c5_no_readings_empty [⟨1, 0, 10⟩] 99 (by decide)

end SmapDashboard
